import Mathlib

set_option maxHeartbeats 1000000

namespace CargoEdit

/-- Total-order comparison on `Nat`, mirroring Rust's `u64::cmp` used by the
`semver` crate for the numeric fields of a version. -/
def natCmp (a b : Nat) : Ordering :=
  if a < b then .lt else if a = b then .eq else .gt

theorem natCmp_eq_iff (a b : Nat) : natCmp a b = .eq ↔ a = b := by
  unfold natCmp
  split_ifs with h1 h2
  · exact iff_of_false (by decide) (by omega)
  · exact iff_of_true rfl h2
  · exact iff_of_false (by decide) h2

theorem natCmp_lt_iff (a b : Nat) : natCmp a b = .lt ↔ a < b := by
  unfold natCmp
  split_ifs with h1 h2
  · exact iff_of_true rfl h1
  · exact iff_of_false (by decide) (by omega)
  · exact iff_of_false (by decide) h1

theorem natCmp_gt_iff (a b : Nat) : natCmp a b = .gt ↔ b < a := by
  unfold natCmp
  split_ifs with h1 h2
  · exact iff_of_false (by decide) (by omega)
  · exact iff_of_false (by decide) (by omega)
  · exact iff_of_true rfl (by omega)

theorem natCmp_swap (a b : Nat) : natCmp a b = (natCmp b a).swap := by
  rcases Nat.lt_trichotomy a b with h | h | h
  · rw [(natCmp_lt_iff a b).mpr h, (natCmp_gt_iff b a).mpr h]; rfl
  · rw [(natCmp_eq_iff a b).mpr h, (natCmp_eq_iff b a).mpr h.symm]; rfl
  · rw [(natCmp_gt_iff a b).mpr h, (natCmp_lt_iff b a).mpr h]; rfl

theorem natCmp_lt_trans {a b c : Nat} (h1 : natCmp a b = .lt) (h2 : natCmp b c = .lt) :
    natCmp a c = .lt := by
  rw [natCmp_lt_iff] at h1 h2 ⊢
  omega

/-- Lexicographic comparison of two lists through an element comparison: the
derived `Ord` of a Rust `Vec`/`String` (a strict prefix compares as less). -/
def lexCmp (f : α → α → Ordering) : List α → List α → Ordering
  | [], [] => .eq
  | [], _ :: _ => .lt
  | _ :: _, [] => .gt
  | a :: as, b :: bs =>
    match f a b with
    | .eq => lexCmp f as bs
    | o => o

theorem lexCmp_eq_iff (f : α → α → Ordering) (feq : ∀ a b, f a b = .eq ↔ a = b) :
    ∀ l m : List α, lexCmp f l m = .eq ↔ l = m := by
  intro l
  induction l with
  | nil => intro m; cases m <;> simp [lexCmp]
  | cons a as ih =>
    intro m
    cases m with
    | nil => simp [lexCmp]
    | cons b bs =>
      simp only [lexCmp]
      cases h : f a b with
      | eq =>
        have hab : a = b := (feq a b).mp h
        subst hab
        simp [ih bs]
      | lt =>
        refine iff_of_false (by simp) ?_
        intro hx
        injection hx with e1 e2
        exact absurd (((feq a b).mpr e1).symm.trans h) (by decide)
      | gt =>
        refine iff_of_false (by simp) ?_
        intro hx
        injection hx with e1 e2
        exact absurd (((feq a b).mpr e1).symm.trans h) (by decide)

theorem lexCmp_swap (f : α → α → Ordering) (fswap : ∀ a b, f a b = (f b a).swap) :
    ∀ l m : List α, lexCmp f l m = (lexCmp f m l).swap := by
  intro l
  induction l with
  | nil => intro m; cases m <;> rfl
  | cons a as ih =>
    intro m
    cases m with
    | nil => rfl
    | cons b bs =>
      simp only [lexCmp]
      rw [fswap a b]
      cases h : f b a with
      | eq => exact ih bs
      | lt => rfl
      | gt => rfl

theorem lexCmp_lt_trans (f : α → α → Ordering) (feq : ∀ a b, f a b = .eq ↔ a = b)
    (ftr : ∀ {a b c}, f a b = .lt → f b c = .lt → f a c = .lt) :
    ∀ l m n : List α, lexCmp f l m = .lt → lexCmp f m n = .lt → lexCmp f l n = .lt := by
  intro l
  induction l with
  | nil =>
    intro m n h1 h2
    cases m with
    | nil => exact h2
    | cons b bs =>
      cases n with
      | nil => exact absurd h2 (by simp [lexCmp])
      | cons c cs => rfl
  | cons a as ih =>
    intro m n h1 h2
    cases m with
    | nil => exact absurd h1 (by simp [lexCmp])
    | cons b bs =>
      cases n with
      | nil => exact absurd h2 (by simp [lexCmp])
      | cons c cs =>
        simp only [lexCmp] at h1 h2 ⊢
        cases hab : f a b with
        | gt => rw [hab] at h1; exact absurd h1 (by simp)
        | eq =>
          rw [hab] at h1
          have e : a = b := (feq a b).mp hab
          rw [← e] at h2
          cases hbc : f a c with
          | gt => rw [hbc] at h2; exact absurd h2 (by simp)
          | eq =>
            rw [hbc] at h2
            exact ih bs cs h1 h2
          | lt => rfl
        | lt =>
          cases hbc : f b c with
          | gt => rw [hbc] at h2; exact absurd h2 (by simp)
          | eq =>
            have e : b = c := (feq b c).mp hbc
            rw [← e, hab]
          | lt => rw [ftr hab hbc]

/-- One dot-separated identifier of a semver pre-release or build list
(`semver::Identifier`): numeric, or alphanumeric kept as its UTF-8 bytes
(Rust compares `String`s bytewise). -/
inductive Identifier where
  | numeric (n : Nat)
  | alphanumeric (s : List Nat)
deriving DecidableEq

/-- The derived `Ord` of `semver::Identifier`: every `Numeric` is below every
`AlphaNumeric`; numerics compare by value, alphanumerics bytewise. -/
def Identifier.cmp : Identifier → Identifier → Ordering
  | .numeric a, .numeric b => natCmp a b
  | .numeric _, .alphanumeric _ => .lt
  | .alphanumeric _, .numeric _ => .gt
  | .alphanumeric a, .alphanumeric b => lexCmp natCmp a b

theorem Identifier.cmp_eq_iff (a b : Identifier) : Identifier.cmp a b = .eq ↔ a = b := by
  cases a <;> cases b <;>
    simp [Identifier.cmp, natCmp_eq_iff, lexCmp_eq_iff natCmp natCmp_eq_iff]

theorem Identifier.cmp_swap (a b : Identifier) :
    Identifier.cmp a b = (Identifier.cmp b a).swap := by
  cases a <;> cases b <;>
    simp only [Identifier.cmp] <;>
    first
      | rfl
      | exact natCmp_swap _ _
      | exact lexCmp_swap natCmp natCmp_swap _ _

theorem Identifier.cmp_lt_trans {a b c : Identifier} (h1 : Identifier.cmp a b = .lt)
    (h2 : Identifier.cmp b c = .lt) : Identifier.cmp a c = .lt := by
  cases a with
  | numeric na =>
    cases c with
    | alphanumeric sc => rfl
    | numeric nc =>
      cases b with
      | numeric nb => exact natCmp_lt_trans h1 h2
      | alphanumeric sb => exact absurd h2 (by simp [Identifier.cmp])
  | alphanumeric sa =>
    cases b with
    | numeric nb => exact absurd h1 (by simp [Identifier.cmp])
    | alphanumeric sb =>
      cases c with
      | numeric nc => exact absurd h2 (by simp [Identifier.cmp])
      | alphanumeric sc =>
        exact lexCmp_lt_trans natCmp natCmp_eq_iff
          (fun ha hb => natCmp_lt_trans ha hb) _ _ _ h1 h2

/-- The pre-release step of the semver crate's `Ord for Version`: an empty
pre-release list (a full release) outranks any non-empty one; two non-empty
lists compare by the derived lexicographic `Vec<Identifier>` order. -/
def preCmp : List Identifier → List Identifier → Ordering
  | [], [] => .eq
  | [], _ :: _ => .gt
  | _ :: _, [] => .lt
  | a :: as, b :: bs => lexCmp Identifier.cmp (a :: as) (b :: bs)

theorem preCmp_eq_iff (p q : List Identifier) : preCmp p q = .eq ↔ p = q := by
  cases p <;> cases q <;>
    simp [preCmp, lexCmp_eq_iff Identifier.cmp Identifier.cmp_eq_iff]

theorem preCmp_swap (p q : List Identifier) : preCmp p q = (preCmp q p).swap := by
  cases p <;> cases q <;>
    first
      | rfl
      | exact lexCmp_swap Identifier.cmp Identifier.cmp_swap _ _

theorem preCmp_lt_trans {p q r : List Identifier} (h1 : preCmp p q = .lt)
    (h2 : preCmp q r = .lt) : preCmp p r = .lt := by
  cases p with
  | nil =>
    cases q with
    | nil => exact absurd h1 (by simp [preCmp])
    | cons b bs => exact absurd h1 (by simp [preCmp])
  | cons a as =>
    cases q with
    | nil =>
      cases r with
      | nil => exact absurd h2 (by simp [preCmp])
      | cons c cs => exact absurd h2 (by simp [preCmp])
    | cons b bs =>
      cases r with
      | nil => rfl
      | cons c cs =>
        exact lexCmp_lt_trans Identifier.cmp Identifier.cmp_eq_iff
          (fun ha hb => Identifier.cmp_lt_trans ha hb) _ _ _ h1 h2

/-- Sequencing of comparison results, as Rust chains `match` arms on `cmp`:
the second comparison counts only when the first is `Equal`. -/
def ordThen (o t : Ordering) : Ordering :=
  match o with
  | .eq => t
  | o => o

theorem ordThen_eq_iff (o t : Ordering) : ordThen o t = .eq ↔ o = .eq ∧ t = .eq := by
  cases o <;> simp [ordThen]

theorem ordThen_lt_iff (o t : Ordering) :
    ordThen o t = .lt ↔ o = .lt ∨ (o = .eq ∧ t = .lt) := by
  cases o <;> simp [ordThen]

/-- The laws a Rust-style three-way comparison satisfies, enough to reason
about `max_by_key`: substitution along ties, transitivity of strict order,
antisymmetry via `swap`, and reflexivity. -/
structure CmpLaws (f : α → α → Ordering) : Prop where
  substL : ∀ {a b c}, f a b = .eq → f a c = f b c
  substR : ∀ {a b c}, f b c = .eq → f a c = f a b
  ltTrans : ∀ {a b c}, f a b = .lt → f b c = .lt → f a c = .lt
  swap : ∀ a b, f a b = (f b a).swap
  refl : ∀ a, f a a = .eq

theorem CmpLaws.ordThen_comp {f g : α → α → Ordering} (hf : CmpLaws f) (hg : CmpLaws g) :
    CmpLaws (fun a b => ordThen (f a b) (g a b)) := by
  constructor
  · intro a b c h
    rw [ordThen_eq_iff] at h
    rw [hf.substL h.1, hg.substL h.2]
  · intro a b c h
    rw [ordThen_eq_iff] at h
    rw [hf.substR h.1, hg.substR h.2]
  · intro a b c h1 h2
    rw [ordThen_lt_iff] at h1 h2 ⊢
    rcases h1 with h1 | ⟨h1, h1g⟩ <;> rcases h2 with h2 | ⟨h2, h2g⟩
    · exact Or.inl (hf.ltTrans h1 h2)
    · exact Or.inl ((hf.substR h2).trans h1)
    · exact Or.inl ((hf.substL h1).trans h2)
    · exact Or.inr ⟨(hf.substL h1).trans h2, hg.ltTrans h1g h2g⟩
  · intro a b
    rw [hf.swap a b, hg.swap a b]
    cases f b a <;> rfl
  · intro a
    rw [show f a a = .eq from hf.refl a, show g a a = .eq from hg.refl a]
    rfl

theorem natCmp_laws {β : Type} (sel : β → Nat) :
    CmpLaws (fun a b : β => natCmp (sel a) (sel b)) := by
  constructor
  · intro a b c h
    rw [(natCmp_eq_iff _ _).mp h]
  · intro a b c h
    rw [(natCmp_eq_iff _ _).mp h]
  · intro a b c h1 h2
    exact natCmp_lt_trans h1 h2
  · intro a b
    exact natCmp_swap _ _
  · intro a
    exact (natCmp_eq_iff _ _).mpr rfl

/-- `semver::Version` (the 0.x series the source depends on, which still has
`is_prerelease()`): major.minor.patch plus pre-release and build identifier
lists. -/
structure Version where
  major : Nat
  minor : Nat
  patch : Nat
  pre : List Identifier
  build : List Identifier
deriving DecidableEq

/-- The semver crate's `Ord for Version`: major, then minor, then patch, then
the pre-release step; build metadata is ignored by `cmp`, exactly as in the
crate. -/
def Version.cmp (a b : Version) : Ordering :=
  match natCmp a.major b.major with
  | .eq =>
    match natCmp a.minor b.minor with
    | .eq =>
      match natCmp a.patch b.patch with
      | .eq => preCmp a.pre b.pre
      | o => o
    | o => o
  | o => o

theorem Version.cmp_eq_ordThen (a b : Version) :
    Version.cmp a b =
      ordThen (natCmp a.major b.major) (ordThen (natCmp a.minor b.minor)
        (ordThen (natCmp a.patch b.patch) (preCmp a.pre b.pre))) := by
  unfold Version.cmp ordThen
  cases natCmp a.major b.major <;> cases natCmp a.minor b.minor <;>
    cases natCmp a.patch b.patch <;> rfl

theorem preCmp_laws : CmpLaws (fun a b : Version => preCmp a.pre b.pre) := by
  constructor
  · intro a b c h
    rw [(preCmp_eq_iff _ _).mp h]
  · intro a b c h
    rw [(preCmp_eq_iff _ _).mp h]
  · intro a b c h1 h2
    exact preCmp_lt_trans h1 h2
  · intro a b
    exact preCmp_swap _ _
  · intro a
    exact (preCmp_eq_iff _ _).mpr rfl

theorem Version.cmp_laws : CmpLaws Version.cmp := by
  have h := ((natCmp_laws (Version.major)).ordThen_comp
    ((natCmp_laws (Version.minor)).ordThen_comp
      ((natCmp_laws (Version.patch)).ordThen_comp preCmp_laws)))
  constructor
  · intro a b c hab
    rw [Version.cmp_eq_ordThen] at hab ⊢
    rw [Version.cmp_eq_ordThen]
    exact h.substL hab
  · intro a b c hbc
    rw [Version.cmp_eq_ordThen] at hbc ⊢
    rw [Version.cmp_eq_ordThen]
    exact h.substR hbc
  · intro a b c h1 h2
    rw [Version.cmp_eq_ordThen] at h1 h2 ⊢
    exact h.ltTrans h1 h2
  · intro a b
    rw [Version.cmp_eq_ordThen, Version.cmp_eq_ordThen]
    exact h.swap a b
  · intro a
    rw [Version.cmp_eq_ordThen]
    exact h.refl a

theorem versionCmp_eq_components_iff (a b : Version) :
    Version.cmp a b = .eq ↔
      a.major = b.major ∧ a.minor = b.minor ∧ a.patch = b.patch ∧ a.pre = b.pre := by
  rw [Version.cmp_eq_ordThen, ordThen_eq_iff, ordThen_eq_iff, ordThen_eq_iff,
    natCmp_eq_iff, natCmp_eq_iff, natCmp_eq_iff, preCmp_eq_iff]

/-- The order along which `max_by_key` keeps the later element: `a` is kept
below or tied with `b` when the comparison is not `Greater`. -/
def versionLe (a b : Version) : Prop := Version.cmp a b ≠ Ordering.gt

instance (a b : Version) : Decidable (versionLe a b) := by
  unfold versionLe
  infer_instance

theorem versionLe_refl (a : Version) : versionLe a a := by
  unfold versionLe
  rw [Version.cmp_laws.refl a]
  decide

theorem versionLe_total (a b : Version) : versionLe a b ∨ versionLe b a := by
  unfold versionLe
  by_cases h : Version.cmp a b = .gt
  · right
    rw [Version.cmp_laws.swap b a, h]
    decide
  · left; exact h

theorem versionLe_antisymm {a b : Version} (h1 : versionLe a b) (h2 : versionLe b a) :
    Version.cmp a b = .eq := by
  unfold versionLe at h1 h2
  cases h : Version.cmp a b with
  | eq => rfl
  | gt => exact absurd h h1
  | lt =>
    refine absurd ?_ h2
    rw [Version.cmp_laws.swap b a, h]
    rfl

theorem versionLe_trans {a b c : Version} (h1 : versionLe a b) (h2 : versionLe b c) :
    versionLe a c := by
  unfold versionLe at h1 h2 ⊢
  cases hab : Version.cmp a b with
  | gt => exact absurd hab h1
  | eq =>
    rw [Version.cmp_laws.substL hab]
    exact h2
  | lt =>
    cases hbc : Version.cmp b c with
    | gt => exact absurd hbc h2
    | eq =>
      rw [Version.cmp_laws.substR hbc, hab]
      decide
    | lt =>
      rw [Version.cmp_laws.ltTrans hab hbc]
      decide

/-- Modelled from the spec: the error kinds of section 7 (the crate's
`errors.rs` is not among the provided sources). Only the variants the fetch
module itself produces are distinguished; wrapped git-layer and I/O failures
are carried as an opaque code. -/
inductive ErrorKind where
  | EmptyCrateName
  | NoCrate (name : List Nat)
  | InvalidSummaryJson
  | NoVersionsAvailable
  | MissingRegistraryCheckout
  | NonUnicodeGitPath
  | gitErr (code : Nat)
deriving DecidableEq

/-- One parsed line of a crate's registry index file (`CrateVersion` in the
source): `{name, vers, yanked}`, with the name kept as its UTF-8 bytes. -/
structure CrateVersion where
  name : List Nat
  version : Version
  yanked : Bool
deriving DecidableEq

/-- The output type `Dependency::new(name).set_version(version)`, with both
fields kept as UTF-8 bytes. -/
structure Dependency where
  name : List Nat
  version : List Nat
deriving DecidableEq

/-- Decimal digits of a natural number as ASCII bytes, fuel-recursive (how
`Display` renders the numeric parts of a version). -/
def natDigitsAux : Nat → Nat → List Nat
  | 0, _ => []
  | fuel + 1, n => if n < 10 then [48 + n] else natDigitsAux fuel (n / 10) ++ [48 + n % 10]

def natDigits (n : Nat) : List Nat := natDigitsAux (n + 1) n

def Identifier.toBytes : Identifier → List Nat
  | .numeric n => natDigits n
  | .alphanumeric s => s

/-- `Display for semver::Version`: `major.minor.patch`, then `-` and the
dot-separated pre-release identifiers when present, then `+` and the
dot-separated build identifiers when present. -/
def versionToBytes (v : Version) : List Nat :=
  natDigits v.major ++ [46] ++ natDigits v.minor ++ [46] ++ natDigits v.patch
    ++ (if v.pre.isEmpty then []
        else 45 :: List.intercalate [46] (v.pre.map Identifier.toBytes))
    ++ (if v.build.isEmpty then []
        else 43 :: List.intercalate [46] (v.build.map Identifier.toBytes))

/-- `version_is_stable`: a record is stable when its version carries no
pre-release tag (`!version.is_prerelease()`). -/
def version_is_stable (v : CrateVersion) : Bool := v.version.pre.isEmpty

/-- The two filtering stages of `read_latest_version`: keep a record when
prereleases are allowed or it is stable, then drop yanked records. -/
def filteredVersions (versions : List CrateVersion) (flag_allow_prerelease : Bool) :
    List CrateVersion :=
  (versions.filter fun v => flag_allow_prerelease || version_is_stable v).filter
    fun v => !v.yanked

/-- One step of `Iterator::max_by_key` on the version key: the accumulator is
kept only when it compares strictly greater, so the later of two tied records
wins. -/
def stepMax (acc x : CrateVersion) : CrateVersion :=
  if Version.cmp acc.version x.version = .gt then acc else x

/-- `Iterator::max_by_key(|v| v.version.clone())`: `none` on an empty
iterator, otherwise a left fold of `stepMax`. -/
def maxByVersionKey : List CrateVersion → Option CrateVersion
  | [] => none
  | v :: vs => some (vs.foldl stepMax v)

/-- `read_latest_version`: filter by the prerelease flag and yanked status,
take the maximum by semver order, and render the winner as a `Dependency`;
`NoVersionsAvailable` when nothing survives the filters. -/
def read_latest_version (versions : List CrateVersion) (flag_allow_prerelease : Bool) :
    Except ErrorKind Dependency :=
  match maxByVersionKey (filteredVersions versions flag_allow_prerelease) with
  | none => .error ErrorKind.NoVersionsAvailable
  | some latest => .ok ⟨latest.name, versionToBytes latest.version⟩

theorem stepMax_le_left (acc x : CrateVersion) :
    versionLe acc.version (stepMax acc x).version := by
  unfold stepMax
  split_ifs with h
  · exact versionLe_refl _
  · exact h

theorem stepMax_le_right (acc x : CrateVersion) :
    versionLe x.version (stepMax acc x).version := by
  unfold stepMax
  split_ifs with h
  · unfold versionLe
    rw [Version.cmp_laws.swap x.version acc.version, h]
    decide
  · exact versionLe_refl _

theorem foldl_stepMax_mem (l : List CrateVersion) :
    ∀ acc, l.foldl stepMax acc = acc ∨ l.foldl stepMax acc ∈ l := by
  induction l with
  | nil => intro acc; exact Or.inl rfl
  | cons x xs ih =>
    intro acc
    rw [List.foldl_cons]
    rcases ih (stepMax acc x) with h | h
    · by_cases hc : Version.cmp acc.version x.version = .gt
      · left
        rw [h]
        unfold stepMax
        rw [if_pos hc]
      · right
        rw [h]
        unfold stepMax
        rw [if_neg hc]
        exact List.mem_cons_self x xs
    · exact Or.inr (List.mem_cons_of_mem x h)

theorem foldl_stepMax_ge (l : List CrateVersion) :
    ∀ acc y, (y = acc ∨ y ∈ l) → versionLe y.version (l.foldl stepMax acc).version := by
  induction l with
  | nil =>
    intro acc y hy
    rcases hy with h | h
    · rw [h]; exact versionLe_refl _
    · exact absurd h (List.not_mem_nil y)
  | cons x xs ih =>
    intro acc y hy
    rw [List.foldl_cons]
    rcases hy with h | h
    · subst h
      exact versionLe_trans (stepMax_le_left y x) (ih (stepMax y x) _ (Or.inl rfl))
    · rcases List.mem_cons.mp h with h | h
      · subst h
        exact versionLe_trans (stepMax_le_right acc y) (ih (stepMax acc y) _ (Or.inl rfl))
      · exact ih (stepMax acc x) y (Or.inr h)

theorem maxByVersionKey_eq_none_iff (l : List CrateVersion) :
    maxByVersionKey l = none ↔ l = [] := by
  cases l <;> simp [maxByVersionKey]

theorem maxByVersionKey_mem {l : List CrateVersion} {r : CrateVersion}
    (h : maxByVersionKey l = some r) : r ∈ l := by
  cases l with
  | nil => exact absurd h (by simp [maxByVersionKey])
  | cons v vs =>
    simp only [maxByVersionKey, Option.some.injEq] at h
    rw [← h]
    rcases foldl_stepMax_mem vs v with h2 | h2
    · rw [h2]; exact List.mem_cons_self v vs
    · exact List.mem_cons_of_mem v h2

theorem maxByVersionKey_ge {l : List CrateVersion} {r : CrateVersion}
    (h : maxByVersionKey l = some r) : ∀ x ∈ l, versionLe x.version r.version := by
  cases l with
  | nil => exact absurd h (by simp [maxByVersionKey])
  | cons v vs =>
    simp only [maxByVersionKey, Option.some.injEq] at h
    intro x hx
    rw [← h]
    rcases List.mem_cons.mp hx with h2 | h2
    · exact foldl_stepMax_ge vs v x (Or.inl h2)
    · exact foldl_stepMax_ge vs v x (Or.inr h2)

theorem mem_filteredVersions (versions : List CrateVersion) (flag : Bool) (r : CrateVersion) :
    r ∈ filteredVersions versions flag ↔
      r ∈ versions ∧ r.yanked = false ∧ (flag = true ∨ r.version.pre = []) := by
  unfold filteredVersions
  rw [List.mem_filter, List.mem_filter]
  unfold version_is_stable
  constructor
  · rintro ⟨⟨hm, hp⟩, hy⟩
    refine ⟨hm, by simpa using hy, ?_⟩
    rcases (Bool.or_eq_true _ _).mp hp with h | h
    · exact Or.inl h
    · exact Or.inr (by simpa using h)
  · rintro ⟨hm, hy, hp⟩
    refine ⟨⟨hm, ?_⟩, by simp [hy]⟩
    rcases hp with h | h
    · simp [h]
    · simp [h]

theorem read_latest_version_error_iff (versions : List CrateVersion) (flag : Bool) :
    read_latest_version versions flag = .error ErrorKind.NoVersionsAvailable ↔
      filteredVersions versions flag = [] := by
  unfold read_latest_version
  cases h : maxByVersionKey (filteredVersions versions flag) with
  | none => exact iff_of_true rfl ((maxByVersionKey_eq_none_iff _).mp h)
  | some r =>
    refine iff_of_false (by simp) ?_
    intro he
    rw [he] at h
    exact absurd h (by simp [maxByVersionKey])

theorem read_latest_version_ok_iff (versions : List CrateVersion) (flag : Bool)
    (dep : Dependency) :
    read_latest_version versions flag = .ok dep ↔
      ∃ r, maxByVersionKey (filteredVersions versions flag) = some r ∧
        dep = ⟨r.name, versionToBytes r.version⟩ := by
  unfold read_latest_version
  cases h : maxByVersionKey (filteredVersions versions flag) with
  | none =>
    refine iff_of_false (by simp) ?_
    rintro ⟨r, hr, -⟩
    exact absurd hr (by simp)
  | some v =>
    simp only [Except.ok.injEq, Option.some.injEq]
    constructor
    · intro hd
      exact ⟨v, rfl, hd.symm⟩
    · rintro ⟨r, hr, hd⟩
      subst hr
      exact hd.symm

/-- Claim C1: version selection discards yanked records unconditionally,
discards prerelease records unless `allow_prerelease` is set, returns a
`Dependency` rendered from a maximal remaining record under semantic-version
ordering, and fails with `NoVersionsAvailable` exactly when the filtered set
is empty. -/
theorem c1_read_latest_version_spec (versions : List CrateVersion) (flag : Bool) :
    (read_latest_version versions flag = .error ErrorKind.NoVersionsAvailable ↔
      ∀ r ∈ versions, ¬(r.yanked = false ∧ (flag = true ∨ r.version.pre = []))) ∧
    ∀ dep, read_latest_version versions flag = .ok dep →
      ∃ r, r ∈ versions ∧ r.yanked = false ∧ (flag = true ∨ r.version.pre = []) ∧
        dep = ⟨r.name, versionToBytes r.version⟩ ∧
        ∀ s, s ∈ versions → s.yanked = false → (flag = true ∨ s.version.pre = []) →
          versionLe s.version r.version := by
  constructor
  · rw [read_latest_version_error_iff, List.eq_nil_iff_forall_not_mem]
    constructor
    · intro h r hr hcond
      exact h r ((mem_filteredVersions versions flag r).mpr ⟨hr, hcond.1, hcond.2⟩)
    · intro h r hr
      obtain ⟨hm, hy, hp⟩ := (mem_filteredVersions versions flag r).mp hr
      exact h r hm ⟨hy, hp⟩
  · intro dep hok
    obtain ⟨r, hmax, hdep⟩ := (read_latest_version_ok_iff versions flag dep).mp hok
    obtain ⟨hm, hy, hp⟩ := (mem_filteredVersions versions flag r).mp (maxByVersionKey_mem hmax)
    refine ⟨r, hm, hy, hp, hdep, ?_⟩
    intro s hs hsy hsp
    exact maxByVersionKey_ge hmax s ((mem_filteredVersions versions flag s).mpr ⟨hs, hsy, hsp⟩)

theorem filteredVersions_perm {l l' : List CrateVersion} (flag : Bool) (h : l.Perm l') :
    (filteredVersions l flag).Perm (filteredVersions l' flag) :=
  (h.filter _).filter _

/-- Claim C8 (amended): reordering the record list preserves the
`NoVersionsAvailable` failure case, and the records selected from the two
orders agree on every precedence-relevant component of their version (major,
minor, patch, pre-release); only build metadata, which the ordering ignores,
can differ in the rendered string. -/
theorem c8_read_latest_version_perm {l l' : List CrateVersion} (flag : Bool)
    (hperm : l.Perm l') :
    (read_latest_version l flag = .error ErrorKind.NoVersionsAvailable ↔
      read_latest_version l' flag = .error ErrorKind.NoVersionsAvailable) ∧
    ∀ r r', maxByVersionKey (filteredVersions l flag) = some r →
      maxByVersionKey (filteredVersions l' flag) = some r' →
      r.version.major = r'.version.major ∧ r.version.minor = r'.version.minor ∧
        r.version.patch = r'.version.patch ∧ r.version.pre = r'.version.pre := by
  have hf := filteredVersions_perm flag hperm
  constructor
  · rw [read_latest_version_error_iff, read_latest_version_error_iff]
    constructor
    · intro h
      rw [h] at hf
      exact hf.symm.eq_nil
    · intro h
      rw [h] at hf
      exact hf.eq_nil
  · intro r r' hr hr'
    have h1 : versionLe r.version r'.version :=
      maxByVersionKey_ge hr' r (hf.mem_iff.mp (maxByVersionKey_mem hr))
    have h2 : versionLe r'.version r.version :=
      maxByVersionKey_ge hr r' (hf.mem_iff.mpr (maxByVersionKey_mem hr'))
    exact (versionCmp_eq_components_iff _ _).mp (versionLe_antisymm h1 h2)

/-- A record at version `1.0.0+a`, tied at maximal precedence with its
sibling below but rendered differently. -/
def buildTieA : CrateVersion :=
  ⟨[120], ⟨1, 0, 0, [], [Identifier.alphanumeric [97]]⟩, false⟩

/-- A record at version `1.0.0+b`. -/
def buildTieB : CrateVersion :=
  ⟨[120], ⟨1, 0, 0, [], [Identifier.alphanumeric [98]]⟩, false⟩

/-- Claim C8 counterexample: two records that differ only in build metadata
tie under semver precedence, `max_by_key` keeps the later one, and the
rendered version string of the selection changes under a swap of the two
records — "1.0.0+b" for one order, "1.0.0+a" for the other. -/
theorem c8_counterexample :
    List.Perm [buildTieA, buildTieB] [buildTieB, buildTieA] ∧
    read_latest_version [buildTieA, buildTieB] false =
      .ok ⟨[120], versionToBytes buildTieB.version⟩ ∧
    read_latest_version [buildTieB, buildTieA] false =
      .ok ⟨[120], versionToBytes buildTieA.version⟩ ∧
    versionToBytes buildTieB.version ≠ versionToBytes buildTieA.version := by
  refine ⟨List.Perm.swap buildTieB buildTieA [], ?_, ?_, ?_⟩
  · rfl
  · rfl
  · decide

/-- Claim C8 witness: the amended theorem applied to a concrete two-element
swap. -/
theorem c8_witness :
    read_latest_version [buildTieA, buildTieB] false = .error ErrorKind.NoVersionsAvailable ↔
      read_latest_version [buildTieB, buildTieA] false = .error ErrorKind.NoVersionsAvailable :=
  (c8_read_latest_version_perm false (List.Perm.swap buildTieB buildTieA [])).1

/-- The UTF-8 code units of an ASCII string literal (a character below 128
encodes as its own code point); used only to spell concrete byte lists
readably. -/
def asciiBytes (s : String) : List Nat := s.data.map Char.toNat

/-- `u8::to_ascii_lowercase`: shift `A`..`Z` (65..90) up by 32, leave every
other byte alone. -/
def lowerByte (b : Nat) : Nat := if 65 ≤ b ∧ b ≤ 90 then b + 32 else b

/-- `str::is_char_boundary` on the UTF-8 bytes of a string: index 0, the end
of the string, or any byte outside the continuation range `0x80..=0xBF`. -/
def isCharBoundary (s : List Nat) (i : Nat) : Bool :=
  if i = 0 then true
  else
    match s[i]? with
    | some b => decide (b < 128 ∨ 192 ≤ b)
    | none => decide (i = s.length)

/-- The length dispatch of `summary_raw_path` on the lowercased bytes:
`none` models a panic — the `unreachable!` arm for length 0, or a byte-slice
index (`..1`, `..2`, `2..4`) that is not a char boundary. Bytes 47, 49, 50,
51 are `/`, `1`, `2`, `3`. -/
def summaryPathOf (cn : List Nat) : Option (List Nat) :=
  if cn.length = 0 then none
  else if cn.length = 1 then some (49 :: 47 :: cn)
  else if cn.length = 2 then some (50 :: 47 :: cn)
  else if cn.length = 3 then
    if isCharBoundary cn 1 then some (51 :: 47 :: (cn.take 1 ++ 47 :: cn)) else none
  else
    if isCharBoundary cn 2 && isCharBoundary cn 4 then
      some (cn.take 2 ++ 47 :: ((cn.drop 2).take 2 ++ 47 :: cn))
    else none

/-- `summary_raw_path`: lowercase the name, then derive the index path from
its byte length. -/
def summary_raw_path (crate_name : List Nat) : Option (List Nat) :=
  summaryPathOf (crate_name.map lowerByte)

theorem summaryPathOf_len1 {cn : List Nat} (hl : cn.length = 1) :
    summaryPathOf cn = some (49 :: 47 :: cn) := by
  unfold summaryPathOf
  rw [if_neg (by omega), if_pos hl]

theorem summaryPathOf_len2 {cn : List Nat} (hl : cn.length = 2) :
    summaryPathOf cn = some (50 :: 47 :: cn) := by
  unfold summaryPathOf
  rw [if_neg (by omega), if_neg (by omega), if_pos hl]

theorem summaryPathOf_len3 {cn : List Nat} (hl : cn.length = 3)
    (hb : isCharBoundary cn 1 = true) :
    summaryPathOf cn = some (51 :: 47 :: (cn.take 1 ++ 47 :: cn)) := by
  unfold summaryPathOf
  rw [if_neg (by omega), if_neg (by omega), if_neg (by omega), if_pos hl, if_pos hb]

theorem summaryPathOf_len4 {cn : List Nat} (hl : 4 ≤ cn.length)
    (hb2 : isCharBoundary cn 2 = true) (hb4 : isCharBoundary cn 4 = true) :
    summaryPathOf cn = some (cn.take 2 ++ 47 :: ((cn.drop 2).take 2 ++ 47 :: cn)) := by
  unfold summaryPathOf
  rw [if_neg (by omega), if_neg (by omega), if_neg (by omega), if_neg (by omega),
    if_pos (by rw [hb2, hb4]; rfl)]

theorem lowerByte_lt_128 {b : Nat} (h : b < 128) : lowerByte b < 128 := by
  unfold lowerByte
  split_ifs <;> omega

theorem mem_map_lowerByte {s : List Nat} (h : ∀ b ∈ s, b < 128) :
    ∀ b ∈ s.map lowerByte, b < 128 := by
  intro b hb
  obtain ⟨a, ha, rfl⟩ := List.mem_map.mp hb
  exact lowerByte_lt_128 (h a ha)

theorem ascii_isCharBoundary {s : List Nat} (hascii : ∀ b ∈ s, b < 128) {i : Nat}
    (hi : i ≤ s.length) : isCharBoundary s i = true := by
  unfold isCharBoundary
  split_ifs with h0
  · rfl
  · rcases Nat.lt_or_ge i s.length with hlt | hge
    · rw [List.getElem?_eq_getElem hlt]
      exact decide_eq_true (Or.inl (hascii _ (List.getElem_mem hlt)))
    · rw [List.getElem?_eq_none hge]
      exact decide_eq_true (Nat.le_antisymm hi hge)

/-- Claim C3 (amended to non-empty ASCII names, length measured in bytes):
path derivation first lowercases, then produces `1/<name>`, `2/<name>`,
`3/<first-byte>/<name>` or `<first-2>/<next-2>/<name>` by length, matching
every example of the spec; on non-ASCII names the function can panic instead
of returning (see the counterexample). -/
theorem c3_summary_raw_path_table (s : List Nat) (h1 : s ≠ [])
    (h2 : ∀ b ∈ s, b < 128) :
    (s.length = 1 → summary_raw_path s = some (49 :: 47 :: s.map lowerByte)) ∧
    (s.length = 2 → summary_raw_path s = some (50 :: 47 :: s.map lowerByte)) ∧
    (s.length = 3 → summary_raw_path s =
      some (51 :: 47 :: ((s.map lowerByte).take 1 ++ 47 :: s.map lowerByte))) ∧
    (4 ≤ s.length → summary_raw_path s =
      some ((s.map lowerByte).take 2 ++
        47 :: (((s.map lowerByte).drop 2).take 2 ++ 47 :: s.map lowerByte))) ∧
    summary_raw_path (asciiBytes "a") = some (asciiBytes "1/a") ∧
    summary_raw_path (asciiBytes "ab") = some (asciiBytes "2/ab") ∧
    summary_raw_path (asciiBytes "abc") = some (asciiBytes "3/a/abc") ∧
    summary_raw_path (asciiBytes "abcd") = some (asciiBytes "ab/cd/abcd") ∧
    summary_raw_path (asciiBytes "Inflector") = some (asciiBytes "in/fl/inflector") := by
  have hascii : ∀ b ∈ s.map lowerByte, b < 128 := mem_map_lowerByte h2
  have hlen : (s.map lowerByte).length = s.length := by simp
  refine ⟨?_, ?_, ?_, ?_, by decide, by decide, by decide, by decide, by decide⟩
  · intro h
    exact summaryPathOf_len1 (by omega)
  · intro h
    exact summaryPathOf_len2 (by omega)
  · intro h
    exact summaryPathOf_len3 (by omega) (ascii_isCharBoundary hascii (by omega))
  · intro h
    exact summaryPathOf_len4 (by omega) (ascii_isCharBoundary hascii (by omega))
      (ascii_isCharBoundary hascii (by omega))

/-- Claim C3 counterexample: the non-empty three-byte name `日` (bytes
230, 151, 165) makes `summary_raw_path` panic on the `..1` byte slice
(modelled as `none`) instead of returning the length-3 table entry, so the
table does not hold for every non-empty name. -/
theorem c3_counterexample : summary_raw_path [230, 151, 165] = none := by decide

/-- Claim C3 witness: the table theorem applied to the concrete name
`Inflector`. -/
theorem c3_witness :
    summary_raw_path (asciiBytes "Inflector") = some (asciiBytes "in/fl/inflector") :=
  (c3_summary_raw_path_table (asciiBytes "Inflector") (by decide)
    (by decide)).2.2.2.2.2.2.2.2

theorem summary_raw_path_ascii_isSome {s : List Nat} (h1 : s ≠ [])
    (h2 : ∀ b ∈ s, b < 128) : (summary_raw_path s).isSome = true := by
  have hascii : ∀ b ∈ s.map lowerByte, b < 128 := mem_map_lowerByte h2
  have hlen : (s.map lowerByte).length = s.length := by simp
  have hpos : 0 < s.length := List.length_pos.mpr h1
  unfold summary_raw_path
  have hcase : s.length = 1 ∨ s.length = 2 ∨ s.length = 3 ∨ 4 ≤ s.length := by omega
  rcases hcase with h | h | h | h
  · rw [summaryPathOf_len1 (by omega)]; rfl
  · rw [summaryPathOf_len2 (by omega)]; rfl
  · rw [summaryPathOf_len3 (by omega) (ascii_isCharBoundary hascii (by omega))]; rfl
  · rw [summaryPathOf_len4 (by omega) (ascii_isCharBoundary hascii (by omega))
      (ascii_isCharBoundary hascii (by omega))]; rfl

/-- Claim C10: for every non-empty ASCII name the path derivation returns
without panicking — the length-0 `unreachable!` arm is not reached and the
byte-index slices at 1, 2 and 4 all fall on char boundaries; the ASCII
restriction is a genuine precondition, because the same function panics on
the non-ASCII name `日`. -/
theorem c10_summary_raw_path_no_panic (s : List Nat) (h1 : s ≠ [])
    (h2 : ∀ b ∈ s, b < 128) :
    (summary_raw_path s).isSome = true ∧ summary_raw_path [230, 151, 165] = none :=
  ⟨summary_raw_path_ascii_isSome h1 h2, by decide⟩

/-- Claim C10 witness: the no-panic theorem applied to the concrete name
`ab`. -/
theorem c10_witness : (summary_raw_path (asciiBytes "ab")).isSome = true :=
  (c10_summary_raw_path_no_panic (asciiBytes "ab") (by decide) (by decide)).1

/-- The separator bytes `-` (45) and `_` (95): `PATTERN` in the source. -/
def PATTERN : List Nat := [45, 95]

/-- Every byte position of the name holding a separator, in order
(`bytes().enumerate().filter(..).map(index)` before the cap). -/
def sepIndexes (crate_name : List Nat) : List Nat :=
  (crate_name.enum.filter fun p => PATTERN.contains p.2).map Prod.fst

/-- The wildcard positions actually varied: the first ten separator
positions (`take(10)`). -/
def wildcardIndexes (crate_name : List Nat) : List Nat :=
  (sepIndexes crate_name).take 10

/-- One bit of the enumeration mask: `(mask >> mask_index) & 1 == 1`. -/
def maskBit (mask j : Nat) : Bool := (mask >>> j) &&& 1 == 1

/-- The inner loop of `gen_fuzzy_crate_names`: write `-` or `_` at each
wildcard position according to the mask bit with the matching index. -/
def setWildcardsAux (mask : Nat) : List (Nat × Nat) → List Nat → List Nat
  | [], bytes => bytes
  | p :: ps, bytes =>
    setWildcardsAux mask ps (bytes.set p.2 (if maskBit mask p.1 then 45 else 95))

/-- The bytes produced for one mask. The source reuses one byte buffer
across masks; starting from the original bytes is equivalent, because every
wildcard position is overwritten on every iteration and no other position is
ever written. -/
def setWildcards (ws : List Nat) (mask : Nat) (bytes : List Nat) : List Nat :=
  setWildcardsAux mask ws.enum bytes

/-- `gen_fuzzy_crate_names`: the input alone when it has no separator byte,
otherwise one variant for every mask in `0..2^k` over the (at most ten)
wildcard positions. -/
def gen_fuzzy_crate_names (crate_name : List Nat) : List (List Nat) :=
  if (wildcardIndexes crate_name).isEmpty then [crate_name]
  else (List.range (2 ^ (wildcardIndexes crate_name).length)).map
    fun mask => setWildcards (wildcardIndexes crate_name) mask crate_name

theorem enumFrom_cons (n : Nat) (a : α) (l : List α) :
    List.enumFrom n (a :: l) = (n, a) :: List.enumFrom (n + 1) l := rfl

theorem mem_enumFrom_snd {l : List α} {n : Nat} {p : Nat × α}
    (h : p ∈ l.enumFrom n) : p.2 ∈ l := by
  induction l generalizing n with
  | nil => exact absurd h (List.not_mem_nil p)
  | cons a as ih =>
    rw [enumFrom_cons] at h
    rcases List.mem_cons.mp h with h | h
    · subst h; exact List.mem_cons_self a as
    · exact List.mem_cons_of_mem a (ih h)

theorem fst_le_of_mem_enumFrom {l : List α} {n : Nat} {p : Nat × α}
    (h : p ∈ l.enumFrom n) : n ≤ p.1 := by
  induction l generalizing n with
  | nil => exact absurd h (List.not_mem_nil p)
  | cons a as ih =>
    rw [enumFrom_cons] at h
    rcases List.mem_cons.mp h with h | h
    · subst h; exact Nat.le_refl n
    · exact Nat.le_of_succ_le (ih h)

theorem mem_enumFrom_iff {l : List α} {n i : Nat} {a : α} :
    (i, a) ∈ l.enumFrom n ↔ ∃ j, i = n + j ∧ l[j]? = some a := by
  induction l generalizing n with
  | nil => simp [List.enumFrom]
  | cons x xs ih =>
    rw [enumFrom_cons]
    constructor
    · intro h
      rcases List.mem_cons.mp h with h | h
      · injection h with h1 h2
        exact ⟨0, by omega, by rw [List.getElem?_cons_zero, h2]⟩
      · obtain ⟨j, hj, hg⟩ := ih.mp h
        exact ⟨j + 1, by omega, by rw [List.getElem?_cons_succ]; exact hg⟩
    · rintro ⟨j, hj, hg⟩
      cases j with
      | zero =>
        rw [List.getElem?_cons_zero] at hg
        injection hg with hg
        subst hg
        have hin : i = n := by omega
        subst hin
        exact List.mem_cons_self _ _
      | succ j =>
        rw [List.getElem?_cons_succ] at hg
        exact List.mem_cons.mpr (Or.inr (ih.mpr ⟨j, by omega, hg⟩))

theorem pattern_contains_iff (b : Nat) : (PATTERN.contains b = true) ↔ b = 45 ∨ b = 95 := by
  constructor
  · intro h
    simp [PATTERN, List.contains] at h
    omega
  · intro h
    rcases h with h | h <;> subst h <;> decide

theorem mem_sepIndexes_iff {s : List Nat} {i : Nat} :
    i ∈ sepIndexes s ↔ ∃ b, s[i]? = some b ∧ (b = 45 ∨ b = 95) := by
  unfold sepIndexes
  rw [List.mem_map]
  constructor
  · rintro ⟨⟨i', b⟩, hp, rfl⟩
    rw [List.mem_filter] at hp
    obtain ⟨hmem, hpat⟩ := hp
    obtain ⟨j, hj, hg⟩ := mem_enumFrom_iff.mp hmem
    refine ⟨b, ?_, (pattern_contains_iff b).mp hpat⟩
    have : i' = j := by omega
    rw [this]
    exact hg
  · rintro ⟨b, hg, hor⟩
    refine ⟨(i, b), ?_, rfl⟩
    rw [List.mem_filter]
    exact ⟨mem_enumFrom_iff.mpr ⟨i, by omega, hg⟩, (pattern_contains_iff b).mpr hor⟩

theorem sepIndexes_pairwise_aux (l : List Nat) :
    ∀ n, (((l.enumFrom n).filter fun p => PATTERN.contains p.2).map Prod.fst).Pairwise
      (· < ·) := by
  induction l with
  | nil => intro n; simp [List.enumFrom]
  | cons a as ih =>
    intro n
    rw [enumFrom_cons]
    by_cases hp : PATTERN.contains a = true
    · simp only [List.filter_cons]
      rw [if_pos hp, List.map_cons]
      refine List.Pairwise.cons ?_ (ih (n + 1))
      intro i hi
      obtain ⟨p, hpmem, rfl⟩ := List.mem_map.mp hi
      have := fst_le_of_mem_enumFrom (List.mem_of_mem_filter hpmem)
      show n < p.1
      omega
    · simp only [List.filter_cons]
      rw [if_neg hp]
      exact ih (n + 1)

theorem sepIndexes_nodup (s : List Nat) : (sepIndexes s).Nodup :=
  List.Pairwise.imp (fun h => Nat.ne_of_lt h) (sepIndexes_pairwise_aux s 0)

theorem wildcardIndexes_nodup (s : List Nat) : (wildcardIndexes s).Nodup :=
  List.Nodup.sublist (List.take_sublist 10 _) (sepIndexes_nodup s)

theorem lt_length_of_mem_sepIndexes {s : List Nat} {i : Nat}
    (h : i ∈ sepIndexes s) : i < s.length := by
  obtain ⟨b, hb, -⟩ := mem_sepIndexes_iff.mp h
  by_contra hge
  rw [List.getElem?_eq_none (by omega)] at hb
  exact absurd hb (by simp)

theorem lt_length_of_mem_wildcardIndexes {s : List Nat} {i : Nat}
    (h : i ∈ wildcardIndexes s) : i < s.length :=
  lt_length_of_mem_sepIndexes (List.mem_of_mem_take h)

theorem length_setWildcardsAux (mask : Nat) :
    ∀ (ps : List (Nat × Nat)) (bytes : List Nat),
      (setWildcardsAux mask ps bytes).length = bytes.length := by
  intro ps
  induction ps with
  | nil => intro bytes; rfl
  | cons p ps ih =>
    intro bytes
    simp only [setWildcardsAux]
    rw [ih, List.length_set]

theorem getElem?_setWildcardsAux_of_not_mem (mask : Nat) {i : Nat} :
    ∀ (ps : List (Nat × Nat)) (bytes : List Nat), (∀ p ∈ ps, p.2 ≠ i) →
      (setWildcardsAux mask ps bytes)[i]? = bytes[i]? := by
  intro ps
  induction ps with
  | nil => intro bytes _; rfl
  | cons p ps ih =>
    intro bytes h
    simp only [setWildcardsAux]
    rw [ih _ fun q hq => h q (List.mem_cons_of_mem p hq),
      List.getElem?_set_ne (h p (List.mem_cons_self p ps))]

theorem getElem?_setWildcardsAux_at (mask : Nat) :
    ∀ (ws : List Nat) (n j i : Nat) (bytes : List Nat), ws.Nodup →
      ws[j]? = some i → i < bytes.length →
      (setWildcardsAux mask (ws.enumFrom n) bytes)[i]? =
        some (if maskBit mask (n + j) then 45 else 95) := by
  intro ws
  induction ws with
  | nil =>
    intro n j i bytes _ hj _
    rw [List.getElem?_eq_none (by simp)] at hj
    exact absurd hj (by simp)
  | cons w ws ih =>
    intro n j i bytes hnd hj hlen
    rw [enumFrom_cons]
    simp only [setWildcardsAux]
    cases j with
    | zero =>
      rw [List.getElem?_cons_zero] at hj
      injection hj with hj
      have hni : ∀ p ∈ ws.enumFrom (n + 1), p.2 ≠ i := by
        intro p hp hpw
        have hmem : p.2 ∈ ws := mem_enumFrom_snd hp
        rw [hpw, ← hj] at hmem
        exact (List.nodup_cons.mp hnd).1 hmem
      rw [getElem?_setWildcardsAux_of_not_mem mask _ _ hni, hj,
        List.getElem?_set_self hlen, Nat.add_zero]
    | succ j =>
      rw [List.getElem?_cons_succ] at hj
      have htail := ih (n + 1) j i
        (bytes.set w (if maskBit mask n then 45 else 95))
        (List.nodup_cons.mp hnd).2 hj (by rw [List.length_set]; exact hlen)
      have e : n + 1 + j = n + (j + 1) := by omega
      rw [e] at htail
      exact htail

theorem getElem?_setWildcards_not_mem {ws : List Nat} {i : Nat} (mask : Nat)
    (bytes : List Nat) (h : i ∉ ws) :
    (setWildcards ws mask bytes)[i]? = bytes[i]? := by
  unfold setWildcards
  refine getElem?_setWildcardsAux_of_not_mem mask _ _ ?_
  intro p hp hpi
  exact h (hpi ▸ mem_enumFrom_snd hp)

theorem getElem?_setWildcards_at {ws : List Nat} {j i : Nat} (mask : Nat)
    {bytes : List Nat} (hnd : ws.Nodup) (hj : ws[j]? = some i)
    (hlen : i < bytes.length) :
    (setWildcards ws mask bytes)[i]? = some (if maskBit mask j then 45 else 95) := by
  unfold setWildcards
  have h := getElem?_setWildcardsAux_at mask ws 0 j i bytes hnd hj hlen
  rw [Nat.zero_add] at h
  exact h

theorem maskBit_eq_testBit (mask j : Nat) : maskBit mask j = Nat.testBit mask j := by
  unfold maskBit Nat.testBit
  rw [Nat.and_one_is_mod, Nat.and_comm 1 (mask >>> j), Nat.and_one_is_mod]
  rcases Nat.mod_two_eq_zero_or_one (mask >>> j) with h | h <;> rw [h] <;> rfl

theorem gen_masks_inj {k m m' : Nat} (hm : m < 2 ^ k) (hm' : m' < 2 ^ k)
    (h : ∀ j, j < k → Nat.testBit m j = Nat.testBit m' j) : m = m' := by
  apply Nat.eq_of_testBit_eq
  intro i
  rcases Nat.lt_or_ge i k with hik | hik
  · exact h i hik
  · rw [Nat.testBit_lt_two_pow (Nat.lt_of_lt_of_le hm (Nat.pow_le_pow_right (by omega) hik)),
      Nat.testBit_lt_two_pow (Nat.lt_of_lt_of_le hm' (Nat.pow_le_pow_right (by omega) hik))]

theorem length_of_mem_gen_fuzzy {s v : List Nat} (hv : v ∈ gen_fuzzy_crate_names s) :
    v.length = s.length := by
  unfold gen_fuzzy_crate_names at hv
  split_ifs at hv with h
  · rw [List.mem_singleton.mp hv]
  · obtain ⟨mask, hm, rfl⟩ := List.mem_map.mp hv
    exact length_setWildcardsAux mask _ s

theorem mem_gen_fuzzy_frame {s v : List Nat} (hv : v ∈ gen_fuzzy_crate_names s)
    {i : Nat} (hi : i ∉ wildcardIndexes s) : v[i]? = s[i]? := by
  unfold gen_fuzzy_crate_names at hv
  split_ifs at hv with h
  · rw [List.mem_singleton.mp hv]
  · obtain ⟨mask, hm, rfl⟩ := List.mem_map.mp hv
    exact getElem?_setWildcards_not_mem mask s hi

theorem mem_gen_fuzzy_sep {s v : List Nat} (hv : v ∈ gen_fuzzy_crate_names s)
    {i : Nat} (hi : i ∈ wildcardIndexes s) : v[i]? = some 45 ∨ v[i]? = some 95 := by
  unfold gen_fuzzy_crate_names at hv
  split_ifs at hv with h
  · rw [List.isEmpty_iff.mp h] at hi
    exact absurd hi (List.not_mem_nil i)
  · obtain ⟨mask, hm, rfl⟩ := List.mem_map.mp hv
    obtain ⟨j, hj⟩ := List.mem_iff_getElem?.mp hi
    rw [getElem?_setWildcards_at mask (wildcardIndexes_nodup s) hj
      (lt_length_of_mem_wildcardIndexes hi)]
    by_cases hb : maskBit mask j = true
    · left; rw [if_pos hb]
    · right; rw [if_neg hb]

theorem gen_fuzzy_nodup (s : List Nat) : (gen_fuzzy_crate_names s).Nodup := by
  unfold gen_fuzzy_crate_names
  split_ifs with h
  · exact List.nodup_singleton s
  · refine List.Nodup.map_on ?_ (List.nodup_range _)
    intro m hm m' hm' heq
    rw [List.mem_range] at hm hm'
    by_contra hne
    have hex : ∃ j, j < (wildcardIndexes s).length ∧
        Nat.testBit m j ≠ Nat.testBit m' j := by
      by_contra hall
      push_neg at hall
      exact hne (gen_masks_inj hm hm' hall)
    obtain ⟨j, hj, hbit⟩ := hex
    obtain ⟨a, hji⟩ : ∃ a, (wildcardIndexes s)[j]? = some a :=
      ⟨_, List.getElem?_eq_getElem hj⟩
    have hlen : a < s.length :=
      lt_length_of_mem_wildcardIndexes (List.mem_iff_getElem?.mpr ⟨j, hji⟩)
    have h1 := getElem?_setWildcards_at m (wildcardIndexes_nodup s) hji hlen
    have h2 := getElem?_setWildcards_at m' (wildcardIndexes_nodup s) hji hlen
    rw [heq] at h1
    have h3 := h1.symm.trans h2
    injection h3 with h3
    rw [maskBit_eq_testBit, maskBit_eq_testBit] at h3
    cases hb : Nat.testBit m j <;> cases hb' : Nat.testBit m' j <;>
      rw [hb, hb'] at h3 hbit <;> simp_all

theorem gen_fuzzy_no_sep {s : List Nat} (h : sepIndexes s = []) :
    gen_fuzzy_crate_names s = [s] := by
  unfold gen_fuzzy_crate_names
  rw [if_pos]
  unfold wildcardIndexes
  rw [h]
  rfl

theorem gen_fuzzy_length {s : List Nat} (hk : (sepIndexes s).length ≤ 10) :
    (gen_fuzzy_crate_names s).length = 2 ^ (sepIndexes s).length := by
  have hws : wildcardIndexes s = sepIndexes s := List.take_of_length_le hk
  unfold gen_fuzzy_crate_names
  split_ifs with h
  · have hnil : sepIndexes s = [] := by rwa [hws, List.isEmpty_iff] at h
    rw [hnil]
    rfl
  · rw [List.length_map, List.length_range, hws]

theorem gen_fuzzy_length_le (s : List Nat) : (gen_fuzzy_crate_names s).length ≤ 1024 := by
  unfold gen_fuzzy_crate_names
  split_ifs with h
  · simp
  · rw [List.length_map, List.length_range]
    have h10 : (wildcardIndexes s).length ≤ 10 := List.length_take_le 10 _
    calc 2 ^ (wildcardIndexes s).length ≤ 2 ^ 10 := Nat.pow_le_pow_right (by omega) h10
      _ = 1024 := by norm_num

/-- Claim C4: for a name with k separator positions, k at most 10,
fuzzy-name generation returns exactly `2^k` distinct variants, each of the
input's length, holding `-` or `_` at every separator position and agreeing
with the input everywhere else; a separator-free name yields only itself;
and unconditionally the output holds at most 1024 variants and positions
outside the ten retained wildcard positions are never varied. -/
theorem c4_gen_fuzzy_spec (s : List Nat) :
    ((sepIndexes s).length ≤ 10 →
      (gen_fuzzy_crate_names s).length = 2 ^ (sepIndexes s).length ∧
      (gen_fuzzy_crate_names s).Nodup ∧
      ∀ v ∈ gen_fuzzy_crate_names s, v.length = s.length ∧
        (∀ i, i ∈ sepIndexes s → v[i]? = some 45 ∨ v[i]? = some 95) ∧
        (∀ i, i ∉ sepIndexes s → v[i]? = s[i]?)) ∧
    (sepIndexes s = [] → gen_fuzzy_crate_names s = [s]) ∧
    (gen_fuzzy_crate_names s).length ≤ 1024 ∧
    ∀ v ∈ gen_fuzzy_crate_names s, ∀ i, i ∉ wildcardIndexes s → v[i]? = s[i]? := by
  refine ⟨?_, gen_fuzzy_no_sep, gen_fuzzy_length_le s, ?_⟩
  · intro hk
    have hws : wildcardIndexes s = sepIndexes s := List.take_of_length_le hk
    refine ⟨gen_fuzzy_length hk, gen_fuzzy_nodup s, ?_⟩
    intro v hv
    refine ⟨length_of_mem_gen_fuzzy hv, ?_, ?_⟩
    · intro i hi
      exact mem_gen_fuzzy_sep hv (hws ▸ hi)
    · intro i hi
      exact mem_gen_fuzzy_frame hv (hws ▸ hi)
  · intro v hv i hi
    exact mem_gen_fuzzy_frame hv hi

/-- The reorder before lookup: when the exact input occurs among the
variants (`position`), `Vec::swap(index, 0)` brings it to the front. -/
def lookup_names (crate_name : List Nat) : List (List Nat) :=
  match (gen_fuzzy_crate_names crate_name).findIdx? (· == crate_name) with
  | some i =>
    match (gen_fuzzy_crate_names crate_name)[i]?,
        (gen_fuzzy_crate_names crate_name)[0]? with
    | some a, some b => ((gen_fuzzy_crate_names crate_name).set 0 a).set i b
    | _, _ => gen_fuzzy_crate_names crate_name
  | none => gen_fuzzy_crate_names crate_name

theorem lt_length_of_getElem?_eq_some {l : List α} {i : Nat} {a : α}
    (h : l[i]? = some a) : i < l.length := by
  by_contra hge
  rw [List.getElem?_eq_none (by omega)] at h
  exact absurd h (by simp)

theorem findIdx?_base_spec (p : List Nat → Bool) :
    ∀ (l : List (List Nat)) (base i : Nat), List.findIdx? p l base = some i →
      base ≤ i ∧ ∃ a, l[i - base]? = some a ∧ p a = true := by
  intro l
  induction l with
  | nil =>
    intro base i h
    simp [List.findIdx?] at h
  | cons x xs ih =>
    intro base i h
    rw [List.findIdx?_cons] at h
    split_ifs at h with hp
    · injection h with h
      subst h
      exact ⟨Nat.le_refl _, x, by simp, hp⟩
    · obtain ⟨hle, a, ha, hpa⟩ := ih (base + 1) i h
      refine ⟨by omega, a, ?_, hpa⟩
      have he : i - base = (i - (base + 1)) + 1 := by omega
      rw [he, List.getElem?_cons_succ]
      exact ha

/-- Claim C6: when the input name equals one of the generated variants the
swap puts that variant at the front of the lookup sequence, so the exact
spelling is tried first, and the sequence keeps its length and draws all its
elements from the generated variants; when no variant equals the input the
enumeration order is preserved unchanged. -/
theorem c6_lookup_names_spec (crate_name : List Nat) :
    (crate_name ∈ gen_fuzzy_crate_names crate_name →
      (lookup_names crate_name)[0]? = some crate_name ∧
      (lookup_names crate_name).length = (gen_fuzzy_crate_names crate_name).length ∧
      ∀ v ∈ lookup_names crate_name, v ∈ gen_fuzzy_crate_names crate_name) ∧
    (crate_name ∉ gen_fuzzy_crate_names crate_name →
      lookup_names crate_name = gen_fuzzy_crate_names crate_name) := by
  constructor
  · intro hmem
    cases hfind : (gen_fuzzy_crate_names crate_name).findIdx? (· == crate_name) with
    | none =>
      rw [List.findIdx?_eq_none_iff] at hfind
      have := hfind crate_name hmem
      simp at this
    | some i =>
      obtain ⟨-, a, hai, hpa⟩ := findIdx?_base_spec _ _ 0 i hfind
      rw [Nat.sub_zero] at hai
      have has : a = crate_name := beq_iff_eq.mp hpa
      rw [has] at hai
      have hilt : i < (gen_fuzzy_crate_names crate_name).length :=
        lt_length_of_getElem?_eq_some hai
      have h0lt : 0 < (gen_fuzzy_crate_names crate_name).length := by omega
      obtain ⟨b, h0⟩ : ∃ b, (gen_fuzzy_crate_names crate_name)[0]? = some b :=
        ⟨_, List.getElem?_eq_getElem h0lt⟩
      have hlk : lookup_names crate_name =
          ((gen_fuzzy_crate_names crate_name).set 0 crate_name).set i b := by
        simp only [lookup_names, hfind]
        rw [hai, h0]
      rw [hlk]
      refine ⟨?_, ?_, ?_⟩
      · by_cases hi0 : i = 0
        · subst hi0
          rw [List.getElem?_set_self (by rw [List.length_set]; exact h0lt)]
          have := h0.symm.trans hai
          injection this with this
          rw [this]
        · rw [List.getElem?_set_ne hi0, List.getElem?_set_self h0lt]
      · rw [List.length_set, List.length_set]
      · intro v hv
        rcases List.mem_or_eq_of_mem_set hv with hv2 | hv2
        · rcases List.mem_or_eq_of_mem_set hv2 with hv3 | hv3
          · exact hv3
          · rw [hv3]; exact hmem
        · rw [hv2]; exact List.mem_iff_getElem?.mpr ⟨0, h0⟩
  · intro hmem
    have hfind : (gen_fuzzy_crate_names crate_name).findIdx? (· == crate_name) = none := by
      rw [List.findIdx?_eq_none_iff]
      intro x hx
      rw [beq_eq_false_iff_ne]
      intro he
      exact hmem (he ▸ hx)
    unfold lookup_names
    rw [hfind]

/-- A byte in the UTF-8 continuation range `0x80..=0xBF`. -/
def contByte (b : Nat) : Bool := decide (128 ≤ b ∧ b ≤ 191)

/-- The UTF-8 validity check `String::from_utf8` performs: ASCII, or a
correctly ranged 2-, 3- or 4-byte sequence, with overlong, surrogate and
out-of-range encodings rejected. -/
def validUtf8 : List Nat → Bool
  | [] => true
  | b :: rest =>
    if b ≤ 127 then validUtf8 rest
    else if 194 ≤ b ∧ b ≤ 223 then
      match rest with
      | c1 :: rest2 => contByte c1 && validUtf8 rest2
      | [] => false
    else if b = 224 then
      match rest with
      | c1 :: c2 :: rest2 =>
        decide (160 ≤ c1 ∧ c1 ≤ 191) && contByte c2 && validUtf8 rest2
      | _ => false
    else if 225 ≤ b ∧ b ≤ 236 then
      match rest with
      | c1 :: c2 :: rest2 => contByte c1 && contByte c2 && validUtf8 rest2
      | _ => false
    else if b = 237 then
      match rest with
      | c1 :: c2 :: rest2 =>
        decide (128 ≤ c1 ∧ c1 ≤ 159) && contByte c2 && validUtf8 rest2
      | _ => false
    else if 238 ≤ b ∧ b ≤ 239 then
      match rest with
      | c1 :: c2 :: rest2 => contByte c1 && contByte c2 && validUtf8 rest2
      | _ => false
    else if b = 240 then
      match rest with
      | c1 :: c2 :: c3 :: rest2 =>
        decide (144 ≤ c1 ∧ c1 ≤ 191) && contByte c2 && contByte c3 && validUtf8 rest2
      | _ => false
    else if 241 ≤ b ∧ b ≤ 243 then
      match rest with
      | c1 :: c2 :: c3 :: rest2 =>
        contByte c1 && contByte c2 && contByte c3 && validUtf8 rest2
      | _ => false
    else if b = 244 then
      match rest with
      | c1 :: c2 :: c3 :: rest2 =>
        decide (128 ≤ c1 ∧ c1 ≤ 143) && contByte c2 && contByte c3 && validUtf8 rest2
      | _ => false
    else false

/-- Split at every newline byte (10), keeping empty pieces — `split('\n')`. -/
def splitNl : List Nat → List (List Nat)
  | [] => [[]]
  | b :: rest =>
    if b = 10 then [] :: splitNl rest
    else
      match splitNl rest with
      | l :: ls => (b :: l) :: ls
      | [] => [[b]]

/-- Drop one trailing carriage return (13) — the `\r` handling of `lines`. -/
def stripCr (l : List Nat) : List Nat :=
  if l.getLast? = some 13 then l.dropLast else l

/-- The per-piece handling of `str::lines` over the exclusive split: every
piece that was terminated by a `\n` has one trailing `\r` stripped; the
final piece, never `\n`-terminated, keeps any `\r` and is dropped when
empty (a trailing newline adds no line). -/
def linesMap : List (List Nat) → List (List Nat)
  | [] => []
  | [last] => if last = [] then [] else [last]
  | p :: rest => stripCr p :: linesMap rest

/-- `str::lines`: split on `\n` and post-process each piece. -/
def rustLines (s : List Nat) : List (List Nat) := linesMap (splitNl s)

/-- `collect::<Result<Vec<_>>>` over the per-line parses: every line must
parse, else the whole parse fails. -/
def parseAll (parseLine : List Nat → Option CrateVersion) :
    List (List Nat) → Option (List CrateVersion)
  | [] => some []
  | l :: ls =>
    match parseLine l, parseAll parseLine ls with
    | some r, some rs => some (r :: rs)
    | _, _ => none

/-- Processing of a resolved index blob: UTF-8 validation, split into lines,
parse each line as one version record; any failure is `InvalidSummaryJson`. -/
def parse_summary (parseLine : List Nat → Option CrateVersion) (blob : List Nat) :
    Except ErrorKind (List CrateVersion) :=
  if validUtf8 blob then
    match parseAll parseLine (rustLines blob) with
    | some recs => .ok recs
    | none => .error ErrorKind.InvalidSummaryJson
  else .error ErrorKind.InvalidSummaryJson

/-- The variant loop of `fuzzy_query_registry_index`: derive each variant's
path and look it up in the tree; the first variant whose path resolves is
parsed and returned; `NoCrate` when the variants run out; `none` models a
panic inside `summary_raw_path`. -/
def fuzzy_go (parseLine : List Nat → Option CrateVersion)
    (tree : List Nat → Option (List Nat)) (crate_name : List Nat) :
    List (List Nat) → Option (Except ErrorKind (List CrateVersion))
  | [] => some (.error (ErrorKind.NoCrate crate_name))
  | n :: rest =>
    match summary_raw_path n with
    | none => none
    | some path =>
      match tree path with
      | none => fuzzy_go parseLine tree crate_name rest
      | some blob => some (parse_summary parseLine blob)

/-- `fuzzy_query_registry_index`, with the git layer abstracted: `treeRes`
is the outcome of opening the repository and peeling
`refs/remotes/origin/<branch>` to a tree, the tree a map from index paths to
blob contents, `parseLine` the per-line `serde_json` parse of a version
record. -/
def fuzzy_query_registry_index (parseLine : List Nat → Option CrateVersion)
    (treeRes : Except ErrorKind (List Nat → Option (List Nat)))
    (crate_name : List Nat) : Option (Except ErrorKind (List CrateVersion)) :=
  match treeRes with
  | .error e => some (.error e)
  | .ok tree => fuzzy_go parseLine tree crate_name (lookup_names crate_name)

/-- The `CARGO_IS_TEST` synthetic version strings. -/
def test_mode_version (crate_name : List Nat) (flag_allow_prerelease : Bool) : List Nat :=
  if flag_allow_prerelease then crate_name ++ asciiBytes "--PRERELEASE_VERSION_TEST"
  else if crate_name = asciiBytes "test_breaking" then asciiBytes "0.2.0"
  else if crate_name = asciiBytes "test_nonbreaking" then asciiBytes "0.1.1"
  else crate_name ++ asciiBytes "--CURRENT_VERSION_TEST"

/-- `get_latest_dependency`, with its collaborators abstracted:
`cargo_is_test` is the `CARGO_IS_TEST` environment check and `cache` the
outcome of `registry.index_url()?.cache_path()?`. The steps keep their
source order: test bypass, empty-name validation, cache-path resolution,
index lookup, version selection. `none` models a panic. -/
def get_latest_dependency (cargo_is_test : Bool) (cache : Except ErrorKind Unit)
    (parseLine : List Nat → Option CrateVersion)
    (treeRes : Except ErrorKind (List Nat → Option (List Nat)))
    (crate_name : List Nat) (flag_allow_prerelease : Bool) :
    Option (Except ErrorKind Dependency) :=
  if cargo_is_test then
    some (.ok ⟨crate_name, test_mode_version crate_name flag_allow_prerelease⟩)
  else if crate_name = [] then some (.error ErrorKind.EmptyCrateName)
  else
    match cache with
    | .error e => some (.error e)
    | .ok _ =>
      match fuzzy_query_registry_index parseLine treeRes crate_name with
      | none => none
      | some (.error e) => some (.error e)
      | some (.ok crate_versions) =>
        some (read_latest_version crate_versions flag_allow_prerelease)

/-- Claim C7: outside the test bypass, an empty crate name makes
`get_latest_dependency` fail with `EmptyCrateName` whatever the outcomes of
the registry cache resolution, the git tree resolution and the line parser:
the validation depends on no I/O outcome, so it happens before any I/O. -/
theorem c7_empty_crate_name (cache : Except ErrorKind Unit)
    (parseLine : List Nat → Option CrateVersion)
    (treeRes : Except ErrorKind (List Nat → Option (List Nat))) (flag : Bool) :
    get_latest_dependency false cache parseLine treeRes [] flag =
      some (.error ErrorKind.EmptyCrateName) := rfl

theorem parseAll_eq_none_iff (pl : List Nat → Option CrateVersion) :
    ∀ ls : List (List Nat), parseAll pl ls = none ↔ ∃ l ∈ ls, pl l = none := by
  intro ls
  induction ls with
  | nil => simp [parseAll]
  | cons l ls ih =>
    simp only [parseAll]
    cases hl : pl l with
    | none => exact iff_of_true rfl ⟨l, List.mem_cons_self l ls, hl⟩
    | some r =>
      cases hrest : parseAll pl ls with
      | none =>
        refine iff_of_true rfl ?_
        obtain ⟨x, hx, hpx⟩ := ih.mp hrest
        exact ⟨x, List.mem_cons_of_mem l hx, hpx⟩
      | some rs =>
        refine iff_of_false (by simp) ?_
        rintro ⟨x, hx, hpx⟩
        rcases List.mem_cons.mp hx with h | h
        · rw [h] at hpx
          exact absurd (hpx.symm.trans hl) (by simp)
        · exact absurd (hrest.symm.trans (ih.mpr ⟨x, h, hpx⟩)) (by simp)

theorem parseAll_eq_some_spec (pl : List Nat → Option CrateVersion) :
    ∀ (ls : List (List Nat)) (rs : List CrateVersion), parseAll pl ls = some rs →
      rs.length = ls.length ∧
        ∀ (i : Nat) (l : List Nat), ls[i]? = some l → ∃ r, rs[i]? = some r ∧ pl l = some r := by
  intro ls
  induction ls with
  | nil =>
    intro rs h
    injection h with h
    constructor
    · rw [← h]
      rfl
    · intro i l hl
      simp at hl
  | cons l ls ih =>
    intro rs h
    simp only [parseAll] at h
    cases hl : pl l with
    | none => rw [hl] at h; exact absurd h (by simp)
    | some r =>
      rw [hl] at h
      cases hrest : parseAll pl ls with
      | none => rw [hrest] at h; exact absurd h (by simp)
      | some rs' =>
        rw [hrest] at h
        injection h with h
        obtain ⟨hlen, hidx⟩ := ih rs' hrest
        constructor
        · rw [← h]
          simp [hlen]
        · intro i x hx
          cases i with
          | zero =>
            rw [List.getElem?_cons_zero] at hx
            injection hx with hx
            refine ⟨r, ?_, by rw [← hx]; exact hl⟩
            rw [← h, List.getElem?_cons_zero]
          | succ i =>
            rw [List.getElem?_cons_succ] at hx
            obtain ⟨rr, hrr, hplx⟩ := hidx i x hx
            refine ⟨rr, ?_, hplx⟩
            rw [← h, List.getElem?_cons_succ]
            exact hrr

theorem parseAll_eq_some_filterMap (pl : List Nat → Option CrateVersion) :
    ∀ (ls : List (List Nat)) (rs : List CrateVersion), parseAll pl ls = some rs →
      rs = ls.filterMap pl := by
  intro ls
  induction ls with
  | nil =>
    intro rs h
    injection h with h
    rw [← h]
    rfl
  | cons l ls ih =>
    intro rs h
    simp only [parseAll] at h
    cases hl : pl l with
    | none => rw [hl] at h; exact absurd h (by simp)
    | some r =>
      rw [hl] at h
      cases hrest : parseAll pl ls with
      | none => rw [hrest] at h; exact absurd h (by simp)
      | some rs' =>
        rw [hrest] at h
        injection h with h
        rw [← h, List.filterMap_cons_some hl, ih rs' hrest]

theorem parseAll_perm_values (pl : List Nat → Option CrateVersion)
    {ls ls' : List (List Nat)} (h : ls.Perm ls') {rs rs' : List CrateVersion}
    (h1 : parseAll pl ls = some rs) (h2 : parseAll pl ls' = some rs') : rs.Perm rs' := by
  rw [parseAll_eq_some_filterMap pl ls rs h1, parseAll_eq_some_filterMap pl ls' rs' h2]
  exact h.filterMap pl

theorem parse_summary_error_iff (pl : List Nat → Option CrateVersion) (blob : List Nat) :
    parse_summary pl blob = .error ErrorKind.InvalidSummaryJson ↔
      validUtf8 blob = false ∨ ∃ l ∈ rustLines blob, pl l = none := by
  unfold parse_summary
  split_ifs with hv
  · cases hp : parseAll pl (rustLines blob) with
    | none => exact iff_of_true rfl (Or.inr ((parseAll_eq_none_iff pl _).mp hp))
    | some recs =>
      refine iff_of_false (by simp) ?_
      rintro (h | h)
      · exact absurd h (by rw [hv]; simp)
      · exact absurd ((parseAll_eq_none_iff pl _).mpr h) (by rw [hp]; simp)
  · refine iff_of_true rfl (Or.inl ?_)
    rwa [Bool.not_eq_true] at hv

theorem parse_summary_ne_noCrate (pl : List Nat → Option CrateVersion) (blob : List Nat)
    (nm : List Nat) : parse_summary pl blob ≠ .error (ErrorKind.NoCrate nm) := by
  unfold parse_summary
  split_ifs with hv
  · cases hp : parseAll pl (rustLines blob) <;> simp
  · simp

theorem parse_summary_ok_spec (pl : List Nat → Option CrateVersion) (blob : List Nat)
    (recs : List CrateVersion) (h : parse_summary pl blob = .ok recs) :
    validUtf8 blob = true ∧ recs.length = (rustLines blob).length ∧
      ∀ (i : Nat) (l : List Nat), (rustLines blob)[i]? = some l → ∃ r, recs[i]? = some r ∧ pl l = some r := by
  unfold parse_summary at h
  by_cases hv : validUtf8 blob = true
  · rw [if_pos hv] at h
    cases hp : parseAll pl (rustLines blob) with
    | none => rw [hp] at h; exact absurd h (by simp)
    | some rs =>
      rw [hp] at h
      injection h with h
      rw [← h]
      exact ⟨hv, parseAll_eq_some_spec pl _ rs hp⟩
  · rw [if_neg hv] at h
    exact absurd h (by simp)

theorem gen_fuzzy_ascii {s v : List Nat} (h2 : ∀ b ∈ s, b < 128)
    (hv : v ∈ gen_fuzzy_crate_names s) : ∀ b ∈ v, b < 128 := by
  intro b hb
  obtain ⟨i, hi⟩ := List.mem_iff_getElem?.mp hb
  by_cases hiw : i ∈ wildcardIndexes s
  · rcases mem_gen_fuzzy_sep hv hiw with h | h <;> rw [hi] at h <;>
      injection h with h <;> omega
  · have hfr := mem_gen_fuzzy_frame hv hiw
    rw [hi] at hfr
    exact h2 b (List.mem_iff_getElem?.mpr ⟨i, hfr.symm⟩)

theorem lookup_names_path_isSome {s : List Nat} (h1 : s ≠ [])
    (h2 : ∀ b ∈ s, b < 128) :
    ∀ v ∈ lookup_names s, (summary_raw_path v).isSome = true := by
  intro v hv
  have hg : v ∈ gen_fuzzy_crate_names s := by
    by_cases hmem : s ∈ gen_fuzzy_crate_names s
    · exact ((c6_lookup_names_spec s).1 hmem).2.2 v hv
    · rw [(c6_lookup_names_spec s).2 hmem] at hv
      exact hv
  refine summary_raw_path_ascii_isSome ?_ (gen_fuzzy_ascii h2 hg)
  intro hnil
  have hl := length_of_mem_gen_fuzzy hg
  rw [hnil] at hl
  simp at hl
  exact h1 (List.eq_nil_of_length_eq_zero hl.symm)

theorem fuzzy_go_eq (pl : List Nat → Option CrateVersion)
    (tree : List Nat → Option (List Nat)) (crate_name : List Nat) :
    ∀ names : List (List Nat), (∀ v ∈ names, (summary_raw_path v).isSome = true) →
      fuzzy_go pl tree crate_name names =
        some ((names.findSome? fun v => (summary_raw_path v).bind tree).elim
          (.error (ErrorKind.NoCrate crate_name)) fun blob => parse_summary pl blob) := by
  intro names
  induction names with
  | nil => intro _; rfl
  | cons n rest ih =>
    intro h
    have hn := h n (List.mem_cons_self n rest)
    simp only [fuzzy_go]
    cases hp : summary_raw_path n with
    | none => rw [hp] at hn; exact absurd hn (by simp)
    | some path =>
      cases ht : tree path with
      | none =>
        simp only [List.findSome?_cons, hp, Option.some_bind, ht]
        exact ih fun v hv => h v (List.mem_cons_of_mem n hv)
      | some blob =>
        simp only [List.findSome?_cons, hp, Option.some_bind, ht]
        rfl

/-- Claim C2 (amended to non-empty ASCII names): index lookup tries the
fuzzy variants in order, stops at the first variant whose derived path
resolves in the index tree and returns that blob's parse, and fails with
`NoCrate(name)` exactly when no variant's path resolves; for the empty name
(and for non-ASCII names that break byte slicing) the code instead panics in
`summary_raw_path` — see the counterexample. -/
theorem c2_fuzzy_query_spec (parseLine : List Nat → Option CrateVersion)
    (tree : List Nat → Option (List Nat)) (crate_name : List Nat)
    (h1 : crate_name ≠ []) (h2 : ∀ b ∈ crate_name, b < 128) :
    fuzzy_query_registry_index parseLine (.ok tree) crate_name =
      some (((lookup_names crate_name).findSome? fun v =>
        (summary_raw_path v).bind tree).elim
          (.error (ErrorKind.NoCrate crate_name)) fun blob =>
            parse_summary parseLine blob) ∧
    (fuzzy_query_registry_index parseLine (.ok tree) crate_name =
        some (.error (ErrorKind.NoCrate crate_name)) ↔
      ∀ v ∈ lookup_names crate_name, (summary_raw_path v).bind tree = none) := by
  have hfg := fuzzy_go_eq parseLine tree crate_name (lookup_names crate_name)
    (lookup_names_path_isSome h1 h2)
  have hq : fuzzy_query_registry_index parseLine (.ok tree) crate_name =
      fuzzy_go parseLine tree crate_name (lookup_names crate_name) := rfl
  constructor
  · rw [hq]; exact hfg
  · rw [hq, hfg]
    cases hf : (lookup_names crate_name).findSome?
        (fun v => (summary_raw_path v).bind tree) with
    | none => exact iff_of_true rfl (List.findSome?_eq_none_iff.mp hf)
    | some blob =>
      refine iff_of_false ?_ ?_
      · intro h
        injection h with h
        exact parse_summary_ne_noCrate parseLine blob crate_name h
      · intro hall
        rw [List.findSome?_eq_none_iff.mpr hall] at hf
        exact absurd hf (by simp)

/-- Claim C2 counterexample: for the empty name, and for the non-ASCII name
`日`, the lookup panics inside `summary_raw_path` (modelled as `none`)
instead of failing with `NoCrate`, even though no variant resolves to a
blob in the (empty) index tree. -/
theorem c2_counterexample :
    fuzzy_query_registry_index (fun _ => none) (.ok fun _ => none) [] = none ∧
    fuzzy_query_registry_index (fun _ => none) (.ok fun _ => none) [] ≠
      some (.error (ErrorKind.NoCrate [])) ∧
    fuzzy_query_registry_index (fun _ => none) (.ok fun _ => none) [230, 151, 165] =
      none := by
  have h0 : fuzzy_query_registry_index (fun _ => none) (.ok fun _ => none) [] = none := rfl
  refine ⟨h0, ?_, rfl⟩
  rw [h0]
  simp

/-- Claim C2 witness: the amended theorem applied to the concrete name `ab`
over an empty tree, giving `NoCrate`. -/
theorem c2_witness :
    fuzzy_query_registry_index (fun _ => none) (.ok fun _ => none) (asciiBytes "ab") =
      some (.error (ErrorKind.NoCrate (asciiBytes "ab"))) :=
  (c2_fuzzy_query_spec (fun _ => none) (fun _ => none) (asciiBytes "ab") (by decide)
    (by decide)).2.mpr fun v _ => by cases summary_raw_path v <;> rfl

/-- Claim C5: a resolved blob fails as `InvalidSummaryJson` exactly when its
bytes are not valid UTF-8 or some line does not parse as a version record;
on success the records are exactly the per-line parses, each line parsed
independently; per-line parsing relies on no ordering of the lines — a
permutation of the lines fails identically and permutes the records; and at
lookup level the blob resolved for the first matching variant is judged by
exactly that rule. -/
theorem c5_parse_summary_spec (parseLine : List Nat → Option CrateVersion)
    (blob : List Nat) :
    (parse_summary parseLine blob = .error ErrorKind.InvalidSummaryJson ↔
      validUtf8 blob = false ∨ ∃ l ∈ rustLines blob, parseLine l = none) ∧
    (∀ recs, parse_summary parseLine blob = .ok recs →
      recs.length = (rustLines blob).length ∧
      ∀ (i : Nat) (l : List Nat), (rustLines blob)[i]? = some l →
        ∃ r, recs[i]? = some r ∧ parseLine l = some r) ∧
    (∀ ls ls' : List (List Nat), ls.Perm ls' →
      (parseAll parseLine ls = none ↔ parseAll parseLine ls' = none) ∧
      ∀ rs rs', parseAll parseLine ls = some rs → parseAll parseLine ls' = some rs' →
        rs.Perm rs') ∧
    ∀ (tree : List Nat → Option (List Nat)) (name : List Nat), name ≠ [] →
      (∀ b ∈ name, b < 128) →
      ((lookup_names name).findSome? fun v => (summary_raw_path v).bind tree) =
        some blob →
      (fuzzy_query_registry_index parseLine (.ok tree) name =
          some (.error ErrorKind.InvalidSummaryJson) ↔
        validUtf8 blob = false ∨ ∃ l ∈ rustLines blob, parseLine l = none) := by
  refine ⟨parse_summary_error_iff parseLine blob, ?_, ?_, ?_⟩
  · intro recs h
    exact (parse_summary_ok_spec parseLine blob recs h).2
  · intro ls ls' hperm
    constructor
    · rw [parseAll_eq_none_iff, parseAll_eq_none_iff]
      constructor
      · rintro ⟨l, hl, hpl⟩
        exact ⟨l, hperm.mem_iff.mp hl, hpl⟩
      · rintro ⟨l, hl, hpl⟩
        exact ⟨l, hperm.mem_iff.mpr hl, hpl⟩
    · intro rs rs' h1 h2
      exact parseAll_perm_values parseLine hperm h1 h2
  · intro tree name hn1 hn2 hfs
    have hfg := fuzzy_go_eq parseLine tree name (lookup_names name)
      (lookup_names_path_isSome hn1 hn2)
    have hq : fuzzy_query_registry_index parseLine (.ok tree) name =
        fuzzy_go parseLine tree name (lookup_names name) := rfl
    rw [hq, hfg, hfs]
    simp only [Option.elim]
    rw [Option.some_inj]
    exact parse_summary_error_iff parseLine blob

/-- The character class `[-_0-9a-zA-Z]` of the user and repo capture
groups. -/
def isClassChar (c : Char) : Bool :=
  decide (c = '-' ∨ c = '_' ∨ ('0' ≤ c ∧ c ≤ '9') ∨ ('a' ≤ c ∧ c ≤ 'z') ∨
    ('A' ≤ c ∧ c ≤ 'Z'))

/-- Strip an exact literal from the front of the input, or fail. -/
def stripLit : List Char → List Char → Option (List Char)
  | [], s => some s
  | _ :: _, [] => none
  | c :: cs, d :: ds => if c = d then stripLit cs ds else none

/-- The optional suffix group `(/|.git)?` anchored at the end: empty, a
slash, or — the dot being an unescaped regex metacharacter — any single
non-newline character followed by `git`. -/
def suffixOk : List Char → Bool
  | [] => true
  | ['/'] => true
  | [c, g, i, t] => decide (c ≠ '\n' ∧ g = 'g' ∧ i = 'i' ∧ t = 't')
  | _ => false

/-- The greedy, backtracking match of `([-_0-9a-zA-Z]+)(/|.git)?$`: the repo
capture is the longest non-empty class-character prefix whose remainder is
an accepted suffix. -/
def repoSplit (rest : List Char) : Option (List Char) :=
  (List.range (rest.takeWhile isClassChar).length).findSome? fun k =>
    if suffixOk ((rest.takeWhile isClassChar).drop
        ((rest.takeWhile isClassChar).length - k) ++ rest.dropWhile isClassChar) then
      some ((rest.takeWhile isClassChar).take ((rest.takeWhile isClassChar).length - k))
    else none

/-- `Regex::captures` for the anchored repository pattern
`^https://<host>.com/([-_0-9a-zA-Z]+)/([-_0-9a-zA-Z]+)(/|.git)?$`: literal
`https://` and the host name, one arbitrary non-newline character where the
unescaped dot stands, literal `com/`, then the user and repo captures. -/
def hostCaptures (host : List Char) (s : List Char) :
    Option (List Char × List Char) :=
  match stripLit ("https://".data ++ host) s with
  | none => none
  | some r1 =>
    match r1 with
    | [] => none
    | c :: r2 =>
      if c = '\n' then none
      else
        match stripLit "com/".data r2 with
        | none => none
        | some r3 =>
          if (r3.takeWhile isClassChar).isEmpty then none
          else
            match r3.dropWhile isClassChar with
            | '/' :: r5 =>
              (repoSplit r5).map fun repo => (r3.takeWhile isClassChar, repo)
            | _ => none

/-- The outcome classification of the name-from-repository path: the
URL-parse failure is a distinct error value from any failure bubbled out of
the HTTP-and-manifest pipeline. -/
inductive RepoErr where
  | urlParse
  | fetchOrParse (code : Nat)
deriving DecidableEq

/-- `get_crate_name_from_repository`: match the URL against the host regex;
with no match fail with the URL-parse error, otherwise build the raw
manifest URL from the two captures and run the fetch-and-extract pipeline
(abstracted as `pipeline`, its failures kept distinct from the URL-parse
error). -/
def get_crate_name_from_repository (pipeline : List Char → Except Nat (List Char))
    (captures : List Char → Option (List Char × List Char))
    (urlTemplate : List Char → List Char → List Char) (repo : List Char) :
    Except RepoErr (List Char) :=
  match captures repo with
  | none => .error RepoErr.urlParse
  | some (user, repoName) =>
    match pipeline (urlTemplate user repoName) with
    | .error e => .error (RepoErr.fetchOrParse e)
    | .ok name => .ok name

/-- The raw-manifest URL template of the github path. -/
def github_url (user repo : List Char) : List Char :=
  "https://raw.githubusercontent.com/".data ++ user ++ "/".data ++ repo ++
    "/master/Cargo.toml".data

/-- The raw-manifest URL template of the gitlab path. -/
def gitlab_url (user repo : List Char) : List Char :=
  "https://gitlab.com/".data ++ user ++ "/".data ++ repo ++
    "/raw/master/Cargo.toml".data

def get_crate_name_from_github (pipeline : List Char → Except Nat (List Char))
    (repo : List Char) : Except RepoErr (List Char) :=
  get_crate_name_from_repository pipeline (hostCaptures "github".data) github_url repo

def get_crate_name_from_gitlab (pipeline : List Char → Except Nat (List Char))
    (repo : List Char) : Except RepoErr (List Char) :=
  get_crate_name_from_repository pipeline (hostCaptures "gitlab".data) gitlab_url repo

/-- Modelled from the spec: the URL pattern as the spec words it —
`https://<host>.com/<user>/<repo>` with a literal dot in the host, user and
repo non-empty runs over `[-_0-9a-zA-Z]`, and an optional trailing `/` or
literal `.git`. Present only to compare the spec's stated pattern with the
code's actual regex. -/
def spec_host_match (host : List Char) (s : List Char) : Bool :=
  match stripLit ("https://".data ++ host ++ ".com/".data) s with
  | none => false
  | some r =>
    if (r.takeWhile isClassChar).isEmpty then false
    else
      match r.dropWhile isClassChar with
      | '/' :: r3 =>
        if (r3.takeWhile isClassChar).isEmpty then false
        else
          (r3.dropWhile isClassChar).isEmpty ||
            (r3.dropWhile isClassChar) == "/".data ||
            (r3.dropWhile isClassChar) == ".git".data
      | _ => false

theorem repository_error_iff (pipeline : List Char → Except Nat (List Char))
    (captures : List Char → Option (List Char × List Char))
    (urlTemplate : List Char → List Char → List Char) (repo : List Char) :
    (get_crate_name_from_repository pipeline captures urlTemplate repo =
        .error RepoErr.urlParse ↔ captures repo = none) ∧
    ∀ u r, captures repo = some (u, r) →
      get_crate_name_from_repository pipeline captures urlTemplate repo =
        match pipeline (urlTemplate u r) with
        | .error e => .error (RepoErr.fetchOrParse e)
        | .ok name => .ok name := by
  constructor
  · unfold get_crate_name_from_repository
    cases hc : captures repo with
    | none => exact iff_of_true rfl rfl
    | some ur =>
      refine iff_of_false ?_ (by simp)
      obtain ⟨u, r⟩ := ur
      cases hp : pipeline (urlTemplate u r) <;> simp [hp]
  · intro u r hc
    unfold get_crate_name_from_repository
    rw [hc]

/-- Claim C9 (amended): both name-from-repository functions fail with the
URL-parse error exactly when the input does not match the code's actual
anchored regex, in which each dot is an unescaped metacharacter matching any
single non-newline character (both the dot of `github.com`/`gitlab.com` and
the dot of the `.git` suffix); every matching URL instead proceeds to the
fetch of the raw master-branch Cargo.toml built from the captures. -/
theorem c9_name_from_repo_spec (pipeline : List Char → Except Nat (List Char))
    (s : List Char) :
    (get_crate_name_from_github pipeline s = .error RepoErr.urlParse ↔
      hostCaptures "github".data s = none) ∧
    (∀ u r, hostCaptures "github".data s = some (u, r) →
      get_crate_name_from_github pipeline s =
        match pipeline (github_url u r) with
        | .error e => .error (RepoErr.fetchOrParse e)
        | .ok name => .ok name) ∧
    (get_crate_name_from_gitlab pipeline s = .error RepoErr.urlParse ↔
      hostCaptures "gitlab".data s = none) ∧
    (∀ u r, hostCaptures "gitlab".data s = some (u, r) →
      get_crate_name_from_gitlab pipeline s =
        match pipeline (gitlab_url u r) with
        | .error e => .error (RepoErr.fetchOrParse e)
        | .ok name => .ok name) :=
  ⟨(repository_error_iff pipeline (hostCaptures "github".data) github_url s).1,
    (repository_error_iff pipeline (hostCaptures "github".data) github_url s).2,
    (repository_error_iff pipeline (hostCaptures "gitlab".data) gitlab_url s).1,
    (repository_error_iff pipeline (hostCaptures "gitlab".data) gitlab_url s).2⟩

/-- Claim C9 counterexample: `https://github.com/user/repo!git` is not of
the spec's stated shape (its tail is `!git`, neither `/` nor `.git`), yet
the code's regex accepts it because the unescaped dot matches `!`, so the
function proceeds to the fetch instead of failing with the URL-parse
error. -/
theorem c9_counterexample :
    spec_host_match "github".data "https://github.com/user/repo!git".data = false ∧
    hostCaptures "github".data "https://github.com/user/repo!git".data =
      some ("user".data, "repo".data) ∧
    get_crate_name_from_github (fun _ => .error 0)
      "https://github.com/user/repo!git".data = .error (RepoErr.fetchOrParse 0) := by
  refine ⟨by decide, by decide, ?_⟩
  rfl

/-- Claim C9 witness: the amended theorem applied to a concrete
non-matching input. -/
theorem c9_witness :
    get_crate_name_from_github (fun _ => .error 0) "x".data =
      .error RepoErr.urlParse :=
  (c9_name_from_repo_spec (fun _ => .error 0) "x".data).1.mpr (by decide)

end CargoEdit
